import Mathlib

/-!
Verification of the TkMarkText markup parser (`src/tkmarktext/__init__.py`,
class `_Mixin`).  The parser pipeline is embedded shallowly: Python strings
become `List Char`, the slice `text[a:b]` becomes `slice s a b`,
`text.startswith(tok, i)` becomes `List.isPrefixOf tok (s.drop i)`, and the
stateful loops become folds or recursions carrying the loop state explicitly.
Index-advancing scan loops recurse structurally on a fuel counter so that all
definitions compute by kernel reduction; every scan advances its position by
at least one per step and stops at the end of the string, so the fuel
`s.length + 1` supplied by each entry point is never exhausted and the
fuel-zero branch (which returns the same value as the end-of-string branch)
is unreachable from the entry points.  Python dictionaries keyed by style
(`style_counts`) become a record of three counters, and the `events`
dictionary becomes the function `eventsAt` (the membership test
`idx in events` becomes `isEventPos`).
-/

namespace TkMarkText

/-- Python slice `text[a:b]` on a `List Char`. -/
def slice (s : List Char) (a b : Nat) : List Char :=
  (s.take b).drop a

/-- Marker kinds, the four token strings of `_style_token_definitions`:
`bi` is `"***"`, `b` is `"**"`, `u` is `"__"`, `i` is `"*"`. -/
inductive Tok where
  | bi
  | b
  | u
  | i
  deriving DecidableEq, Repr

/-- Characters of a marker token. -/
def Tok.chars : Tok → List Char
  | .bi => ['*', '*', '*']
  | .b => ['*', '*']
  | .u => ['_', '_']
  | .i => ['*']

/-- Length of a marker token (the `len` field stored by `_find_style_markers`,
always `len(token)`). -/
def Tok.len (t : Tok) : Nat := t.chars.length

theorem tok_len_pos (t : Tok) : 0 < t.len := by cases t <;> decide

/-- Token priority order of `_style_token_definitions`: `["***", "**", "__", "*"]`. -/
def tokens : List Tok := [.bi, .b, .u, .i]

/-- Style-marker occurrence: the dict `{"pos": i, "token": t, "len": len(t),
"paired": bool}` of `_find_style_markers`.  The `len` field is determined by
the token (`Occ.len`), and the mutable `paired` flag is set exactly for the
occurrences that end up in the pair list, so it is represented by membership
in the pair list rather than stored. -/
structure Occ where
  pos : Nat
  token : Tok
  deriving DecidableEq, Repr

/-- Stored token length of an occurrence. -/
def Occ.len (o : Occ) : Nat := o.token.len

theorem occ_len_pos (o : Occ) : 0 < o.len := tok_len_pos o.token

/-- First token of the priority list matching at position `i`
(the inner `for token in tokens: if text.startswith(token, i)` loop). -/
def firstTok (s : List Char) (i : Nat) : Option Tok :=
  tokens.find? (fun t => t.chars.isPrefixOf (s.drop i))

/-- Scan loop of `_find_style_markers` from position `i`: record the first
matching token and advance by its length, otherwise advance by one. -/
def findFromF : Nat → List Char → Nat → List Occ
  | 0, _, _ => []
  | fuel + 1, s, i =>
    if i < s.length then
      match firstTok s i with
      | some t => ⟨i, t⟩ :: findFromF fuel s (i + t.len)
      | none => findFromF fuel s (i + 1)
    else []

/-- Mirrors `_find_style_markers(text, tokens)`. -/
def findStyleMarkers (s : List Char) : List Occ := findFromF (s.length + 1) s 0

/-- Closing condition of `_pair_style_markers`: same token as the top of the
stack, non-empty inner span, and no newline inside the inner span. -/
def canClose (s : List Char) (top occ : Occ) : Bool :=
  decide (top.token = occ.token) &&
  decide (top.pos + top.len < occ.pos) &&
  decide ('\n' ∉ slice s (top.pos + top.len) occ.pos)

/-- Loop state of `_pair_style_markers`: the stack (head is the top) and the
emitted pair list. -/
abbrev PairState := List Occ × List (Occ × Occ)

/-- Body of the `for occ in style_markers` loop of `_pair_style_markers`. -/
def pairStep (s : List Char) (st : PairState) (occ : Occ) : PairState :=
  match st with
  | (top :: rest, ps) =>
    if canClose s top occ then (rest, ps ++ [(top, occ)])
    else (occ :: top :: rest, ps)
  | ([], ps) => ([occ], ps)

/-- Full run of `_pair_style_markers`, returning the final stack and pairs. -/
def pairRun (s : List Char) (occs : List Occ) : PairState :=
  occs.foldl (pairStep s) ([], [])

/-- Mirrors `_pair_style_markers(style_markers, text)` (its return value is
only the pair list; the leftover stack is dropped). -/
def pairStyleMarkers (occs : List Occ) (s : List Char) : List (Occ × Occ) :=
  (pairRun s occs).2

/-- Styles of `token_styles` in `_style_token_definitions`. -/
inductive Style where
  | bold
  | italic
  | underline
  deriving DecidableEq, Repr

/-- Mapping token to styles (`token_styles`).  Python iterates the style sets
in unspecified set order; a fixed order is used here, which is sound because
each event only touches its own style counter, so the resulting counts do not
depend on the order in which the events at one offset are applied. -/
def tokenStyles : Tok → List Style
  | .bi => [.bold, .italic]
  | .b => [.bold]
  | .u => [.underline]
  | .i => [.italic]

/-- Events recorded at offset `idx` by `_build_style_events_and_skip_positions`:
`(true, st)` is an add event, `(false, st)` a remove event. -/
def eventsAt (pairs : List (Occ × Occ)) (idx : Nat) : List (Bool × Style) :=
  pairs.flatMap (fun pr =>
    (if pr.1.pos + pr.1.len = idx then (tokenStyles pr.1.token).map (fun st => (true, st)) else []) ++
    (if pr.2.pos = idx then (tokenStyles pr.2.token).map (fun st => (false, st)) else []))

/-- Membership test `idx in events` of `_emit_segments_from_events`: some pair
records an event at `idx` (every recorded event list is non-empty because
`tokenStyles` is never empty). -/
def isEventPos (pairs : List (Occ × Occ)) (idx : Nat) : Bool :=
  pairs.any (fun pr => pr.1.pos + pr.1.len == idx || pr.2.pos == idx)

/-- Membership in `skip_positions`: `p` lies in the token range of the opening
or closing occurrence of some pair. -/
def isSkip (pairs : List (Occ × Occ)) (p : Nat) : Bool :=
  pairs.any (fun pr =>
    decide ((pr.1.pos ≤ p ∧ p < pr.1.pos + pr.1.len) ∨
      (pr.2.pos ≤ p ∧ p < pr.2.pos + pr.2.len)))

/-- Reference counts of active styles (the `style_counts` dict; an absent key
is count `0`). -/
structure Counts where
  bold : Nat
  italic : Nat
  underline : Nat
  deriving DecidableEq, Repr

/-- Look up a style counter. -/
def Counts.cnt (c : Counts) : Style → Nat
  | .bold => c.bold
  | .italic => c.italic
  | .underline => c.underline

/-- Update a style counter. -/
def Counts.setCnt (c : Counts) : Style → Nat → Counts
  | .bold, n => { c with bold := n }
  | .italic, n => { c with italic := n }
  | .underline, n => { c with underline := n }

/-- Apply one event: add increments; remove decrements, and Python's
`if cnt <= 0: pop` is exactly truncated subtraction on `Nat` (a popped key
reads back as count `0`). -/
def applyEvent (c : Counts) (ev : Bool × Style) : Counts :=
  if ev.1 then c.setCnt ev.2 (c.cnt ev.2 + 1)
  else c.setCnt ev.2 (c.cnt ev.2 - 1)

/-- Apply all events at one offset (the `for op, style in events[idx]` loop). -/
def applyEvents (evs : List (Bool × Style)) (c : Counts) : Counts :=
  evs.foldl applyEvent c

/-- Mapping of `_style_to_tag_map`, written over the three membership flags of
the active style set. -/
def styleSetToTag (bold italic underline : Bool) : String :=
  match bold, italic, underline with
  | false, false, false => "content"
  | true, false, false => "bold"
  | false, true, false => "italic"
  | true, true, false => "bolditalic"
  | false, false, true => "underline"
  | true, false, true => "boldunderline"
  | false, true, true => "italicunderline"
  | true, true, true => "bolditalicunderline"

/-- Tag of the active style set `set(style_counts.keys())`: keys present are
exactly the styles with positive count. -/
def tagOfCounts (c : Counts) : String :=
  styleSetToTag (decide (0 < c.bold)) (decide (0 < c.italic)) (decide (0 < c.underline))

/-- Output segment `(tag, text)` of `_emit_segments_from_events`. -/
abbrev Seg := String × List Char

/-- Python's `if buf: out_segments.append((style_set_to_tag(active_set), "".join(buf)))`. -/
def flushBuf (counts : Counts) (buf : List Char) (segs : List Seg) : List Seg :=
  if buf ≠ [] then segs ++ [(tagOfCounts counts, buf)] else segs

/-- Post-loop part of `_emit_segments_from_events`: the `if n in events` block
(flush, apply the events at `n` to the counts, clear the buffer) followed by
the final `if buf` flush. -/
def emitFinish (s : List Char) (pairs : List (Occ × Occ)) (counts : Counts)
    (buf : List Char) (segs : List Seg) : List Seg :=
  if isEventPos pairs s.length then
    flushBuf (applyEvents (eventsAt pairs s.length) counts) [] (flushBuf counts buf segs)
  else flushBuf counts buf segs

/-- Main `while idx < n` loop of `_emit_segments_from_events`: at an event
offset flush the buffer under the previous active set, apply the events and
clear the buffer; then append the current character to the buffer unless its
position is skipped. -/
def emitFromF : Nat → List Char → List (Occ × Occ) → Nat → Counts → List Char → List Seg → List Seg
  | 0, s, pairs, _, counts, buf, segs => emitFinish s pairs counts buf segs
  | fuel + 1, s, pairs, idx, counts, buf, segs =>
    if idx < s.length then
      if isEventPos pairs idx then
        emitFromF fuel s pairs (idx + 1) (applyEvents (eventsAt pairs idx) counts)
          (if isSkip pairs idx then [] else [s.getD idx ' '])
          (flushBuf counts buf segs)
      else
        emitFromF fuel s pairs (idx + 1) counts
          (if isSkip pairs idx then buf else buf ++ [s.getD idx ' '])
          segs
    else emitFinish s pairs counts buf segs

/-- Mirrors `_emit_segments_from_events(text, events, skip_positions, ...)`. -/
def emitSegmentsFromEvents (s : List Char) (pairs : List (Occ × Occ)) : List Seg :=
  emitFromF (s.length + 1) s pairs 0 ⟨0, 0, 0⟩ [] []

/-- Loop body of `_merge_adjacent_segments`: drop empty segments, merge into
the last accumulated segment when the tags agree. -/
def mergeFold (acc : List Seg) (p : Seg) : List Seg :=
  if p.2 = [] then acc
  else
    match acc.getLast? with
    | some q => if q.1 = p.1 then acc.dropLast ++ [(q.1, q.2 ++ p.2)] else acc ++ [p]
    | none => acc ++ [p]

/-- Mirrors `_merge_adjacent_segments(segments)`. -/
def mergeAdjacentSegments (segs : List Seg) : List Seg :=
  segs.foldl mergeFold []

/-- Mirrors `_parse_style(text)`: fast path when no `*` or `_` occurs, then
tokenize, pair, emit and merge, falling back to a single `content` segment
wrapping the raw input when the merged list is empty. -/
def parse_style (s : List Char) : List Seg :=
  if !(s.contains '*' || s.contains '_') then [("content", s)]
  else if mergeAdjacentSegments
      (emitSegmentsFromEvents s (pairStyleMarkers (findStyleMarkers s) s)) = [] then
    [("content", s)]
  else
    mergeAdjacentSegments (emitSegmentsFromEvents s (pairStyleMarkers (findStyleMarkers s) s))

/-- Concatenation of the text fields of a segment list. -/
def segsText (segs : List Seg) : List Char := segs.flatMap (fun p => p.2)

/-- Text of a character list with the characters at skipped positions removed
(`i` is the position of the first listed character).  With the skip predicate
instantiated to the paired-marker positions this is the claim-side reading of
"the input with the characters of paired marker tokens removed and all other
characters, unpaired markers included, retained verbatim". -/
def stripFrom (pairs : List (Occ × Occ)) : List Char → Nat → List Char
  | [], _ => []
  | c :: cs, i => (if isSkip pairs i then [] else [c]) ++ stripFrom pairs cs (i + 1)

/-- Python `str.isspace()` on one character: the exact whitespace set that
Python's argumentless `strip`/`lstrip` remove — ASCII whitespace including
vertical tab `\x0b` and form feed `\x0c`, the separator controls
`\x1c`–`\x1f`, NEL `\x85`, NBSP `\xa0`, and the Unicode space separators
(Ogham space mark, the en-quad through hair-space range, line and paragraph
separator, narrow no-break space, medium mathematical space, ideographic
space). -/
def pyIsSpace (c : Char) : Bool :=
  decide (0x09 ≤ c.toNat ∧ c.toNat ≤ 0x0D) ||
  decide (0x1C ≤ c.toNat ∧ c.toNat ≤ 0x1F) ||
  decide (c.toNat = 0x20) || decide (c.toNat = 0x85) || decide (c.toNat = 0xA0) ||
  decide (c.toNat = 0x1680) ||
  decide (0x2000 ≤ c.toNat ∧ c.toNat ≤ 0x200A) ||
  decide (c.toNat = 0x2028) || decide (c.toNat = 0x2029) || decide (c.toNat = 0x202F) ||
  decide (c.toNat = 0x205F) || decide (c.toNat = 0x3000)

/-- Python `str.strip()` (both ends). -/
def pyStrip (s : List Char) : List Char :=
  ((s.dropWhile pyIsSpace).reverse.dropWhile pyIsSpace).reverse

/-- Python `str.lstrip()`. -/
def pyLstrip (s : List Char) : List Char :=
  s.dropWhile pyIsSpace

/-- Alignment keywords of the justify directive. -/
inductive Align where
  | left
  | center
  | right
  deriving DecidableEq, Repr

/-- Opening directive text for an alignment. -/
def Align.header : Align → List Char
  | .left => "[justify:left]".toList
  | .center => "[justify:center]".toList
  | .right => "[justify:right]".toList

/-- Closing directive text. -/
def closer : List Char := "[/justify]".toList

/-- Alignment whose opening directive matches at position `i`, trying the
regex alternation `left|center|right` in order (at most one can match since
the keywords differ at their first character). -/
def headerAt (s : List Char) (i : Nat) : Option Align :=
  [Align.left, Align.center, Align.right].find?
    (fun a => a.header.isPrefixOf (s.drop i))

/-- First position `k ≥ j` where the closing directive matches: the lazy
`(.*?)` of the pattern expands to the nearest following `[/justify]`. -/
def findCloserF : Nat → List Char → Nat → Option Nat
  | 0, _, _ => none
  | fuel + 1, s, j =>
    if j < s.length then
      if closer.isPrefixOf (s.drop j) then some j else findCloserF fuel s (j + 1)
    else none

/-- Leftmost match of `\[justify:(left|center|right)\](.*?)\[/justify\]`
(DOTALL) starting at or after `i`: returns the match start, the alignment and
the closer position.  A directive opening with no later closer fails and the
scan resumes one character later, exactly as the regex engine advances its
start position (no other opening can begin inside a header, since `[` occurs
only at its first character). -/
def findDirectiveF : Nat → List Char → Nat → Option (Nat × Align × Nat)
  | 0, _, _ => none
  | fuel + 1, s, i =>
    if i < s.length then
      match headerAt s i with
      | some a =>
        match findCloserF (s.length + 1) s (i + a.header.length) with
        | some k => some (i, a, k)
        | none => findDirectiveF fuel s (i + 1)
      | none => findDirectiveF fuel s (i + 1)
    else none

/-- Entry point for the leftmost directive match at or after `i`. -/
def findDirective (s : List Char) (i : Nat) : Option (Nat × Align × Nat) :=
  findDirectiveF (s.length + 1) s i

/-- Justify block `(justify_tag_or_None, text_segment)`; the Python tag string
`"justify_" + alignment` is represented by the `Align` value itself. -/
abbrev Block := Option Align × List Char

/-- Python's `if some_text: blocks.append((tag, some_text))`. -/
def emitChunk (al : Option Align) (chunk : List Char) (acc : List Block) : List Block :=
  if chunk ≠ [] then acc ++ [(al, chunk)] else acc

/-- Loop of `_parse_justify_blocks` over `re.finditer` matches: emit the
non-empty pre-match text (guarded by `match.start() > last_end`), then the
non-empty captured content, and continue after the match; when no further
match exists, emit the non-empty tail (guarded by `last_end < len(text)`). -/
def justifyLoopF : Nat → List Char → Nat → List Block → List Block
  | 0, _, _, acc => acc
  | fuel + 1, s, lastEnd, acc =>
    match findDirective s lastEnd with
    | some (st, a, k) =>
      justifyLoopF fuel s (k + closer.length)
        (emitChunk (some a) (slice s (st + a.header.length) k)
          (if lastEnd < st then emitChunk none (slice s lastEnd st) acc else acc))
    | none =>
      if lastEnd < s.length then emitChunk none (slice s lastEnd s.length) acc else acc

/-- Mirrors `_parse_justify_blocks(text)`: the match loop, the whole-text
fallback when no block was produced, and the final filter dropping empty and
whitespace-only segments. -/
def parse_justify_blocks (s : List Char) : List Block :=
  (if justifyLoopF (s.length + 1) s 0 [] = [] then [((none : Option Align), s)]
   else justifyLoopF (s.length + 1) s 0 []).filter
    (fun b => !b.2.isEmpty && !(pyStrip b.2).isEmpty)

/-- Concatenation of the text fields of a block list. -/
def blocksText (bs : List Block) : List Char := bs.flatMap (fun b => b.2)

/-- Definition following the spec's words for claim C2: the input with the
matched directive markers (and nothing else) removed, obtained by walking the
same leftmost matches the splitter consumes and keeping the text between and
inside them. -/
def stripJustifyF : Nat → List Char → Nat → List Char
  | 0, _, _ => []
  | fuel + 1, s, i =>
    match findDirective s i with
    | some (st, a, k) =>
      slice s i st ++ slice s (st + a.header.length) k ++
        stripJustifyF fuel s (k + closer.length)
    | none => slice s i s.length

/-- Entry point: the input with the directive markers removed. -/
def stripJustifyDirectives (s : List Char) : List Char :=
  stripJustifyF (s.length + 1) s 0

/-- Split on the newline character, keeping empty parts. -/
def splitNl : List Char → List (List Char)
  | [] => [[]]
  | c :: rest =>
    if c = '\n' then [] :: splitNl rest
    else
      match splitNl rest with
      | h :: t => (c :: h) :: t
      | [] => [[c]]

/-- Python `str.splitlines()` restricted to `'\n'` line breaks (the only line
break the claims exercise): no entry for the empty string, and no trailing
empty line for a trailing newline. -/
def splitlines (s : List Char) : List (List Char) :=
  if s = [] then []
  else if s.getLast? = some '\n' then (splitNl s).dropLast
  else splitNl s

/-- Classified item of one line of `_insert_rich_text`'s inner loop: a heading
(tag and stripped heading text; the trailing newline and the justification
tag are renderer plumbing), a body line (its styled segments, each followed
by a newline insert), or a paragraph break (the single `"\n"` inserted for a
blank-line run). -/
inductive RItem where
  | heading (tag : String) (text : List Char)
  | body (segs : List Seg)
  | brk
  deriving DecidableEq, Repr

/-- Line loop of `_insert_rich_text` for one block, carrying
`blank_line_pending`: heading prefixes are tested on the stripped line in the
order `### `, `## `, `# `; other non-blank lines are style-parsed (on the raw
line); a blank line emits a paragraph break only when none is pending. -/
def classifyAux (pending : Bool) : List (List Char) → List RItem
  | [] => []
  | line :: rest =>
    if ['#', '#', '#', ' '].isPrefixOf (pyStrip line) then
      .heading "###heading" ((pyStrip line).drop 4) :: classifyAux false rest
    else if ['#', '#', ' '].isPrefixOf (pyStrip line) then
      .heading "##heading" ((pyStrip line).drop 3) :: classifyAux false rest
    else if ['#', ' '].isPrefixOf (pyStrip line) then
      .heading "#heading" ((pyStrip line).drop 2) :: classifyAux false rest
    else if pyStrip line ≠ [] then
      .body (parse_style line) :: classifyAux false rest
    else if pending then classifyAux true rest
    else .brk :: classifyAux true rest

/-- Classification of a block's lines (`blank_line_pending` starts `False` for
each block). -/
def classifyLines (lines : List (List Char)) : List RItem :=
  classifyAux false lines

/-- Mirrors `_insert_rich_text(text)`: split into justify blocks and classify
each block's lines, keeping the block alignment. -/
def insertRichText (s : List Char) : List (Option Align × List RItem) :=
  (parse_justify_blocks s).map (fun b => (b.1, classifyLines (splitlines b.2)))

/-- Observable result of `_update_text` (and hence `set_text`): the sentinel
placeholder `"No text available"`, the rich-text rendering, or the plain
rendering.  The input is modelled by its string/None variants (`str` is the
only variant the rich path accepts and the one the claims exercise). -/
inductive Rendered where
  | noText
  | rich (blocks : List (Option Align × List RItem))
  | simple (out : List Char)
  deriving DecidableEq, Repr

/-- Mirrors `_update_text(text, rich_text)`: `None` renders the sentinel
(`_strip_leading_whitespace` maps `None` to `None` and a string to its
`lstrip`); a string is rendered richly or plainly. -/
def updateText (text : Option (List Char)) (richText : Bool) : Rendered :=
  match text with
  | none => .noText
  | some s => if richText then .rich (insertRichText (pyLstrip s)) else .simple (pyLstrip s)

/-! ### Merger lemmas -/

theorem mergeFold_chain (acc : List Seg) (p : Seg)
    (h : acc.Chain' (fun a b => a.1 ≠ b.1)) :
    (mergeFold acc p).Chain' (fun a b => a.1 ≠ b.1) := by
  unfold mergeFold
  split
  · exact h
  · split
    · rename_i q hq
      split
      · rename_i htag
        have hacc : acc.dropLast ++ [q] = acc := List.dropLast_append_getLast? q hq
        rw [← hacc] at h
        rw [List.chain'_append] at h ⊢
        exact ⟨h.1, List.chain'_singleton _, fun x hx y hy => by
          simp only [List.head?_cons, Option.mem_def, Option.some.injEq] at hy
          subst hy
          exact h.2.2 x hx q rfl⟩
      · rename_i htag
        rename_i hq
        rw [List.chain'_append]
        refine ⟨h, List.chain'_singleton _, fun x hx y hy => ?_⟩
        simp only [Option.mem_def] at hx hy
        simp only [List.head?_cons, Option.some.injEq] at hy
        subst hy
        rw [hq] at hx
        cases hx
        exact htag
    · rw [List.chain'_append]
      refine ⟨h, List.chain'_singleton _, fun x hx y hy => ?_⟩
      rename_i hq
      simp only [Option.mem_def] at hx
      rw [hq] at hx
      cases hx

theorem merge_chain (l : List Seg) :
    ∀ acc, acc.Chain' (fun a b => a.1 ≠ b.1) →
      (l.foldl mergeFold acc).Chain' (fun a b => a.1 ≠ b.1) := by
  induction l with
  | nil => exact fun acc h => h
  | cons p l ih =>
    intro acc h
    rw [List.foldl_cons]
    exact ih _ (mergeFold_chain acc p h)

theorem mergeFold_concat (acc : List Seg) (p : Seg) :
    segsText (mergeFold acc p) = segsText acc ++ p.2 := by
  unfold mergeFold
  split
  · rename_i hp
    rw [hp, List.append_nil]
  · split
    · rename_i q hq
      split
      · have hacc : acc.dropLast ++ [q] = acc := List.dropLast_append_getLast? q hq
        conv_rhs => rw [← hacc]
        simp [segsText]
      · simp [segsText]
    · simp [segsText]

theorem merge_concat (l : List Seg) :
    ∀ acc, segsText (l.foldl mergeFold acc) = segsText acc ++ segsText l := by
  induction l with
  | nil => simp [segsText]
  | cons p l ih =>
    intro acc
    rw [List.foldl_cons, ih, mergeFold_concat]
    simp [segsText]

theorem mergeAdjacentSegments_concat (l : List Seg) :
    segsText (mergeAdjacentSegments l) = segsText l := by
  unfold mergeAdjacentSegments
  rw [merge_concat]
  rfl

/-- C6: in the final segment list returned by the style parser no two
consecutive segments carry an identical tag: the merger coalesces adjacent
equal-tag segments (and the fast-path and fallback results are singletons). -/
theorem c6_no_adjacent_equal_tags (s : List Char) :
    (parse_style s).Chain' (fun a b => a.1 ≠ b.1) := by
  unfold parse_style
  split
  · exact List.chain'_singleton _
  · split
    · exact List.chain'_singleton _
    · exact merge_chain _ [] List.chain'_nil

/-- C7: the style-parsing entry point always returns at least one segment:
when the merged list is empty, `_parse_style` substitutes the fallback
singleton `[("content", text)]` wrapping the raw line. -/
theorem c7_parse_style_nonempty (s : List Char) : parse_style s ≠ [] := by
  unfold parse_style
  split
  · simp
  · split
    · simp
    · assumption

/-- C8 counterexample: the claim says every empty-or-null input yields the
single sentinel segment, but the empty string is not `None`, survives
`_strip_leading_whitespace`, and renders through the rich path as zero
segments (the justify splitter returns no blocks for `""`), not as the
sentinel. -/
theorem c8_counterexample : updateText (some []) true ≠ Rendered.noText := by
  decide

/-- C8 amended: only a `None` input renders the sentinel `"No text available"`
(in both rich and plain mode); an empty-string input renders as empty output
(no blocks in rich mode, the empty string in plain mode), and no exception is
raised in either case (the model is total). -/
theorem c8_amended :
    (∀ rt : Bool, updateText none rt = Rendered.noText) ∧
    updateText (some []) true = Rendered.rich [] ∧
    updateText (some []) false = Rendered.simple [] := by
  exact ⟨fun rt => rfl, by decide, by decide⟩

/-! ### Line-classifier lemmas -/

/-- Value of `blank_line_pending` after processing a list of lines starting
from `b`: every branch of the loop body sets it to whether the stripped line
was blank. -/
def pendA (b : Bool) : List (List Char) → Bool
  | [] => b
  | line :: rest => pendA ((pyStrip line).isEmpty) rest

theorem pendA_cons (b : Bool) (line : List Char) (rest : List (List Char)) :
    pendA b (line :: rest) = pendA ((pyStrip line).isEmpty) rest := rfl

theorem isEmpty_false_of_ne_nil {l : List Char} (h : l ≠ []) : l.isEmpty = false := by
  cases l
  · exact absurd rfl h
  · rfl

theorem ne_nil_of_isPrefixOf {c : Char} {cs l : List Char}
    (h : (c :: cs).isPrefixOf l = true) : l ≠ [] := by
  cases l
  · simp [List.isPrefixOf] at h
  · simp

/-- One-line unfolding of the classifier when the stripped line is blank: the
heading and body branches are all skipped. -/
theorem classifyAux_cons_blank (b : Bool) (line : List Char) (rest : List (List Char))
    (hs : pyStrip line = []) :
    classifyAux b (line :: rest) =
      if b then classifyAux true rest else RItem.brk :: classifyAux true rest := by
  conv_lhs => rw [classifyAux]
  rw [hs]
  rw [if_neg (by decide), if_neg (by decide), if_neg (by decide), if_neg (by decide)]

/-- One-line unfolding of the classifier on a non-blank line: the emitted head
item does not depend on the pending flag, and the flag is reset. -/
theorem classifyAux_cons_nonblank (b : Bool) (line : List Char) (rest : List (List Char))
    (hs : pyStrip line ≠ []) :
    classifyAux b (line :: rest) =
      classifyAux false [line] ++ classifyAux false rest := by
  conv_lhs => rw [classifyAux]
  conv_rhs => rw [classifyAux]
  split_ifs <;> first
    | rfl
    | exact absurd (by assumption) hs

theorem classifyAux_append (xs : List (List Char)) :
    ∀ (b : Bool) (ys : List (List Char)),
      classifyAux b (xs ++ ys) = classifyAux b xs ++ classifyAux (pendA b xs) ys := by
  induction xs with
  | nil => intro b ys; rfl
  | cons line xs ih =>
    intro b ys
    rw [List.cons_append, pendA_cons]
    by_cases hs : pyStrip line = []
    · rw [classifyAux_cons_blank b line _ hs, classifyAux_cons_blank b line _ hs, hs]
      show _ = _ ++ classifyAux (pendA true xs) ys
      split
      · exact ih true ys
      · rw [List.cons_append, ih true ys]
    · rw [classifyAux_cons_nonblank b line _ hs, classifyAux_cons_nonblank b line _ hs,
        isEmpty_false_of_ne_nil hs, ih false ys, List.append_assoc]

theorem pendA_append (xs ys : List (List Char)) :
    ∀ b, pendA b (xs ++ ys) = pendA (pendA b xs) ys := by
  induction xs with
  | nil => intro b; rfl
  | cons line xs ih => intro b; exact ih _

theorem classifyAux_blank_tail (bs : List (List Char)) (hb : ∀ l ∈ bs, pyStrip l = []) :
    classifyAux true bs = [] := by
  induction bs with
  | nil => rfl
  | cons line rest ih =>
    rw [classifyAux_cons_blank true line rest (hb line (List.mem_cons_self _ _)), if_pos rfl]
    exact ih fun l hl => hb l (List.mem_cons_of_mem _ hl)

theorem classifyAux_blanks (bs : List (List Char)) (hne : bs ≠ [])
    (hb : ∀ l ∈ bs, pyStrip l = []) :
    classifyAux false bs = [RItem.brk] := by
  cases bs with
  | nil => exact absurd rfl hne
  | cons line rest =>
    rw [classifyAux_cons_blank false line rest (hb line (List.mem_cons_self _ _))]
    rw [if_neg (by simp)]
    rw [classifyAux_blank_tail rest fun l hl => hb l (List.mem_cons_of_mem _ hl)]

theorem pendA_blanks (bs : List (List Char)) (hne : bs ≠ [])
    (hb : ∀ l ∈ bs, pyStrip l = []) : ∀ b, pendA b bs = true := by
  induction bs with
  | nil => exact absurd rfl hne
  | cons line rest ih =>
    intro b
    rw [pendA_cons, hb line (List.mem_cons_self _ _)]
    cases rest with
    | nil => rfl
    | cons y t => exact ih (by simp) (fun l hl => hb l (List.mem_cons_of_mem _ hl)) _

theorem classifyAux_head_nonblank (y : List Char) (rest : List (List Char))
    (hy : pyStrip y ≠ []) :
    classifyAux true (y :: rest) = classifyAux false (y :: rest) := by
  rw [classifyAux_cons_nonblank true y rest hy, classifyAux_cons_nonblank false y rest hy]

/-- C9: the line classifier of `_insert_rich_text` emits exactly one paragraph
break for a maximal run of one or more blank lines: a run of blank lines
(preceded by nothing or a non-blank line, and followed by nothing or a
non-blank line) contributes exactly the single item `RItem.brk` to the
classified output. -/
theorem c9_blank_runs_collapse (pre blanks post : List (List Char))
    (hne : blanks ≠ []) (hb : ∀ l ∈ blanks, pyStrip l = [])
    (hpre : pre = [] ∨ ∃ ini x, pre = ini ++ [x] ∧ pyStrip x ≠ [])
    (hpost : post = [] ∨ ∃ y rest, post = y :: rest ∧ pyStrip y ≠ []) :
    classifyLines (pre ++ blanks ++ post) =
      classifyLines pre ++ [RItem.brk] ++ classifyLines post := by
  unfold classifyLines
  have hpend : pendA false pre = false := by
    rcases hpre with rfl | ⟨ini, x, rfl, hx⟩
    · rfl
    · rw [pendA_append]
      show (pyStrip x).isEmpty = false
      cases hps : pyStrip x
      · exact absurd hps hx
      · rfl
  rw [List.append_assoc, classifyAux_append, hpend, classifyAux_append,
    classifyAux_blanks blanks hne hb, pendA_blanks blanks hne hb]
  have hpost2 : classifyAux true post = classifyAux false post := by
    rcases hpost with rfl | ⟨y, rest, rfl, hy⟩
    · rfl
    · exact classifyAux_head_nonblank y rest hy
  rw [hpost2, List.append_assoc]

/-- Witness for C9 at a concrete input: a body line, three blank lines and a
body line classify to body, one break, body. -/
theorem c9_witness :
    (([[], [], []] : List (List Char)) ≠ [] ∧ ∀ l ∈ ([[], [], []] : List (List Char)), pyStrip l = []) ∧
    classifyLines ([['a']] ++ [[], [], []] ++ [['b']]) =
      classifyLines [['a']] ++ [RItem.brk] ++ classifyLines [['b']] :=
  ⟨⟨by decide, by decide⟩,
    c9_blank_runs_collapse [['a']] [[], [], []] [['b']] (by decide) (by decide)
      (Or.inr ⟨[], ['a'], rfl, by decide⟩) (Or.inr ⟨['b'], [], rfl, by decide⟩)⟩

/-! ### Tokenizer lemmas -/

/-- Separation of tokenizer occurrences: the earlier token ends at or before
the later token starts. -/
def occSep (a c : Occ) : Prop := a.pos + a.len ≤ c.pos

instance : IsTrans Occ occSep :=
  ⟨fun a c e h1 h2 => Nat.le_trans h1 (Nat.le_trans (Nat.le_add_right _ _) h2)⟩

theorem firstTok_isPrefix {s : List Char} {i : Nat} {t : Tok}
    (h : firstTok s i = some t) : t.chars.isPrefixOf (s.drop i) = true := by
  unfold firstTok at h
  exact @List.find?_some _ (fun tk => tk.chars.isPrefixOf (List.drop i s)) t tokens h

theorem firstTok_len_le {s : List Char} {i : Nat} {t : Tok}
    (h : firstTok s i = some t) : i + t.len ≤ s.length := by
  have hp := List.isPrefixOf_iff_prefix.mp (firstTok_isPrefix h)
  have h1 : t.chars.length ≤ (s.drop i).length := hp.length_le
  have h2 := tok_len_pos t
  rw [List.length_drop] at h1
  unfold Tok.len at h2 ⊢
  omega

theorem findFromF_spec (s : List Char) :
    ∀ (fuel i : Nat),
      (∀ o ∈ findFromF fuel s i,
        i ≤ o.pos ∧ o.pos + o.len ≤ s.length ∧ firstTok s o.pos = some o.token) ∧
      (findFromF fuel s i).Chain' occSep := by
  intro fuel
  induction fuel with
  | zero => intro i; exact ⟨by simp [findFromF], by simp [findFromF]⟩
  | succ fuel ih =>
    intro i
    unfold findFromF
    split
    · rename_i hi
      cases heq : firstTok s i with
      | some t =>
        constructor
        · intro o ho
          rcases List.mem_cons.mp ho with rfl | ho
          · exact ⟨Nat.le_refl _, firstTok_len_le heq, heq⟩
          · have h2 := (ih (i + t.len)).1 o ho
            exact ⟨by omega, h2.2.1, h2.2.2⟩
        · rw [List.chain'_cons']
          refine ⟨fun y hy => ?_, (ih (i + t.len)).2⟩
          have hmem := List.mem_of_mem_head? hy
          exact ((ih (i + t.len)).1 y hmem).1
      | none =>
        constructor
        · intro o ho
          have h2 := (ih (i + 1)).1 o ho
          exact ⟨by omega, h2.2.1, h2.2.2⟩
        · exact (ih (i + 1)).2
    · exact ⟨by simp, by simp⟩

theorem findStyleMarkers_spec (s : List Char) :
    (∀ o ∈ findStyleMarkers s,
      o.pos + o.len ≤ s.length ∧ firstTok s o.pos = some o.token) ∧
    (findStyleMarkers s).Pairwise occSep := by
  refine ⟨fun o ho => ⟨((findFromF_spec s _ 0).1 o ho).2.1, ((findFromF_spec s _ 0).1 o ho).2.2⟩, ?_⟩
  exact List.chain'_iff_pairwise.mp (findFromF_spec s _ 0).2

/-- Character of the string at a position covered by a matched token. -/
theorem isPrefixOf_getD (t s : List Char) (j m : Nat)
    (h : t.isPrefixOf (s.drop j) = true) (hm : m < t.length) :
    s.getD (j + m) ' ' = t.getD m ' ' := by
  obtain ⟨u, hu⟩ := List.isPrefixOf_iff_prefix.mp h
  rw [List.getD_eq_getElem?_getD, List.getD_eq_getElem?_getD]
  have hd : s[j + m]? = (s.drop j)[m]? := (List.getElem?_drop s j m).symm
  rw [hd, ← hu, List.getElem?_append]
  rw [if_pos hm]

/-- The three stars of a maximal run of exactly three asterisks. -/
theorem run3_drop (s : List Char) (i : Nat)
    (hlen : i + 2 < s.length)
    (h0 : s.getD i ' ' = '*') (h1 : s.getD (i + 1) ' ' = '*') (h2 : s.getD (i + 2) ' ' = '*') :
    s.drop i = '*' :: '*' :: '*' :: s.drop (i + 3) := by
  have e0 : i < s.length := by omega
  have e1 : i + 1 < s.length := by omega
  rw [← List.getElem_cons_drop s i e0, ← List.getElem_cons_drop s (i + 1) e1,
    ← List.getElem_cons_drop s (i + 2) hlen]
  have g0 : s[i] = '*' := by
    rw [List.getD_eq_getElem?_getD, List.getElem?_eq_getElem e0] at h0
    exact h0
  have g1 : s[i + 1] = '*' := by
    rw [List.getD_eq_getElem?_getD, List.getElem?_eq_getElem e1] at h1
    exact h1
  have g2 : s[i + 2] = '*' := by
    rw [List.getD_eq_getElem?_getD, List.getElem?_eq_getElem hlen] at h2
    exact h2
  rw [g0, g1, g2]

theorem firstTok_run3 (s : List Char) (i : Nat)
    (hlen : i + 2 < s.length)
    (h0 : s.getD i ' ' = '*') (h1 : s.getD (i + 1) ' ' = '*') (h2 : s.getD (i + 2) ' ' = '*') :
    firstTok s i = some Tok.bi := by
  unfold firstTok tokens
  apply List.find?_cons_of_pos
  rw [run3_drop s i hlen h0 h1 h2]
  simp [Tok.chars, List.isPrefixOf]

/-- Every character of an all-asterisk marker token is an asterisk. -/
theorem star_chars_getD (t : Tok) (ht : t ≠ Tok.u) (m : Nat) (hm : m < t.chars.length) :
    t.chars.getD m ' ' = '*' := by
  cases t with
  | u => exact absurd rfl ht
  | bi =>
    rcases m with _ | (_ | (_ | m))
    · rfl
    · rfl
    · rfl
    · have h3 : Tok.bi.chars.length = 3 := rfl
      exact absurd hm (by omega)
  | b =>
    rcases m with _ | (_ | m)
    · rfl
    · rfl
    · have h2c : Tok.b.chars.length = 2 := rfl
      exact absurd hm (by omega)
  | i =>
    rcases m with _ | m
    · rfl
    · have h1c : Tok.i.chars.length = 1 := rfl
      exact absurd hm (by omega)

/-- The scan of `_find_style_markers` reaches the start of a maximal run of
exactly three asterisks, records it as a single `***` occurrence, and records
no other occurrence inside the run. -/
theorem findFromF_run3 (s : List Char) (i : Nat)
    (hlen : i + 2 < s.length)
    (h0 : s.getD i ' ' = '*') (h1 : s.getD (i + 1) ' ' = '*') (h2 : s.getD (i + 2) ' ' = '*')
    (hleft : i = 0 ∨ s.getD (i - 1) ' ' ≠ '*')
    (hright : s.length ≤ i + 3 ∨ s.getD (i + 3) ' ' ≠ '*') :
    ∀ (fuel j : Nat), s.length - j < fuel → j ≤ i →
      (⟨i, Tok.bi⟩ : Occ) ∈ findFromF fuel s j ∧
      ∀ o ∈ findFromF fuel s j, i ≤ o.pos → o.pos < i + 3 → o = (⟨i, Tok.bi⟩ : Occ) := by
  intro fuel
  induction fuel with
  | zero => intro j hf _; omega
  | succ fuel ih =>
    intro j hf hj
    have hjlt : j < s.length := by omega
    unfold findFromF
    rw [if_pos hjlt]
    by_cases hji : j = i
    · subst hji
      rw [firstTok_run3 s j hlen h0 h1 h2]
      constructor
      · exact List.mem_cons_self _ _
      · intro o ho _ hlt
        rcases List.mem_cons.mp ho with rfl | ho
        · rfl
        · have := ((findFromF_spec s fuel (j + Tok.bi.len)).1 o ho).1
          have h3 : Tok.bi.len = 3 := rfl
          omega
    · have hjlt2 : j < i := by omega
      cases heq : firstTok s j with
      | some t =>
        have hadv : j + t.len ≤ i := by
          have hpre := firstTok_isPrefix heq
          by_contra hcon
          push_neg at hcon
          by_cases htu : t = Tok.u
          · subst htu
            have hu2 : Tok.u.len = 2 := rfl
            have hji1 : j + 1 = i := by omega
            have hch := isPrefixOf_getD _ s j 1 hpre (by decide)
            rw [hji1] at hch
            rw [h0] at hch
            exact absurd hch (by decide)
          · have htlen : t.chars.length = t.len := rfl
            have htpos := tok_len_pos t
            have hm : i - 1 - j < t.chars.length := by omega
            have hch := isPrefixOf_getD _ s j (i - 1 - j) hpre hm
            rw [star_chars_getD t htu _ hm] at hch
            have hji2 : j + (i - 1 - j) = i - 1 := by omega
            rw [hji2] at hch
            rcases hleft with rfl | hne
            · omega
            · exact hne hch
        have hstep := ih (j + t.len) (by have := tok_len_pos t; omega) hadv
        constructor
        · exact List.mem_cons_of_mem _ hstep.1
        · intro o ho hge hlt
          rcases List.mem_cons.mp ho with rfl | ho
          · exact absurd hge (Nat.not_le.mpr hjlt2)
          · exact hstep.2 o ho hge hlt
      | none =>
        exact ih (j + 1) (by omega) (by omega)

/-- C4: for every input line, the tokenizer scans left to right matching the
longest marker token in priority order at each position (every recorded
occurrence is the first priority-list match at its position) and returns the
occurrence list in strictly increasing position order (consecutive
occurrences do not even overlap); and whenever the line has a maximal run of
exactly three asterisks, that run is recorded as the single occurrence `***`
at the run start, never as `*` plus `**` or `**` plus `*`. -/
theorem c4_tokenizer (s : List Char) :
    (findStyleMarkers s).Chain' (fun a c => a.pos < c.pos) ∧
    (∀ o ∈ findStyleMarkers s, firstTok s o.pos = some o.token) ∧
    (∀ i : Nat, i + 2 < s.length →
      s.getD i ' ' = '*' → s.getD (i + 1) ' ' = '*' → s.getD (i + 2) ' ' = '*' →
      (i = 0 ∨ s.getD (i - 1) ' ' ≠ '*') →
      (s.length ≤ i + 3 ∨ s.getD (i + 3) ' ' ≠ '*') →
      (⟨i, Tok.bi⟩ : Occ) ∈ findStyleMarkers s ∧
      (∀ o ∈ findStyleMarkers s, i ≤ o.pos → o.pos < i + 3 → o = (⟨i, Tok.bi⟩ : Occ))) := by
  refine ⟨?_, fun o ho => ((findStyleMarkers_spec s).1 o ho).2, ?_⟩
  · exact (findFromF_spec s _ 0).2.imp fun a c h => by
      have := occ_len_pos a
      unfold occSep at h
      omega
  · intro i hlen h0 h1 h2 hleft hright
    exact findFromF_run3 s i hlen h0 h1 h2 hleft hright (s.length + 1) 0 (by omega) (by omega)

/-- Witness for C4: in `"a***b"` the run of three asterisks at position 1. -/
theorem c4_witness :
    ((1 + 2 < "a***b".toList.length ∧ "a***b".toList.getD 1 ' ' = '*') ∧
      (1 = 0 ∨ "a***b".toList.getD 0 ' ' ≠ '*') ∧
      ("a***b".toList.length ≤ 4 ∨ "a***b".toList.getD 4 ' ' ≠ '*')) ∧
    (⟨1, Tok.bi⟩ : Occ) ∈ findStyleMarkers "a***b".toList :=
  ⟨⟨by decide, by decide, by decide⟩,
    ((c4_tokenizer "a***b".toList).2.2 1 (by decide) (by decide) (by decide) (by decide)
      (by decide) (by decide)).1⟩

/-! ### Pairer invariant -/

theorem canClose_iff (s : List Char) (top occ : Occ) :
    canClose s top occ = true ↔
      (top.token = occ.token ∧ top.pos + top.len < occ.pos ∧
        '\n' ∉ slice s (top.pos + top.len) occ.pos) := by
  unfold canClose
  simp [and_assoc]

theorem canClose_lt {s : List Char} {top occ : Occ}
    (h : canClose s top occ = true) : top.pos + top.len < occ.pos :=
  ((canClose_iff s top occ).mp h).2.1

/-- Strong nesting relation between an earlier and a later emitted pair:
either the earlier pair's whole span (token ranges included) lies before the
later pair's opening token, or the later pair encloses the earlier one with
both of its marker tokens outside the earlier pair's span. -/
def pairNest (a c : Occ × Occ) : Prop :=
  a.2.pos + a.2.len ≤ c.1.pos ∨
  (c.1.pos + c.1.len ≤ a.1.pos ∧ a.2.pos + a.2.len ≤ c.2.pos)

/-- Invariant of the pairing loop: the stack is position-sorted (top first),
everything recorded ends at or below the bound `b` (the end of the last
processed occurrence), emitted pairs have non-empty inner spans, stack
entries lie outside every emitted pair's span, and pairs nest. -/
structure PairInv (stack : List Occ) (pairs : List (Occ × Occ)) (b : Nat) : Prop where
  stack_sorted : stack.Pairwise (fun x y => y.pos + y.len ≤ x.pos)
  stack_bound : ∀ o ∈ stack, o.pos + o.len ≤ b
  pair_inner : ∀ pr ∈ pairs, pr.1.pos + pr.1.len < pr.2.pos
  pair_bound : ∀ pr ∈ pairs, pr.2.pos + pr.2.len ≤ b
  pair_stack : ∀ pr ∈ pairs, ∀ e ∈ stack, e.pos + e.len ≤ pr.1.pos ∨ pr.2.pos + pr.2.len ≤ e.pos
  pair_nested : pairs.Pairwise pairNest

theorem pairRun_inv (s : List Char) (N : Nat) :
    ∀ (occs : List Occ), occs.Pairwise occSep →
      ∀ (stack : List Occ) (pairs : List (Occ × Occ)) (b : Nat),
        (∀ o ∈ occs, b ≤ o.pos ∧ o.pos + o.len ≤ N) → b ≤ N →
        PairInv stack pairs b →
        ∃ b2, b2 ≤ N ∧
          PairInv (occs.foldl (pairStep s) (stack, pairs)).1
            (occs.foldl (pairStep s) (stack, pairs)).2 b2 := by
  intro occs
  induction occs with
  | nil =>
    intro _ stack pairs b _ hbN hinv
    exact ⟨b, hbN, hinv⟩
  | cons x rest ih =>
    intro hpw stack pairs b hocc hbN hinv
    rw [List.foldl_cons]
    have hx := hocc x (List.mem_cons_self _ _)
    have hbx : b ≤ x.pos := hx.1
    have htail := (List.pairwise_cons.mp hpw).2
    have hrest : ∀ o ∈ rest, x.pos + x.len ≤ o.pos ∧ o.pos + o.len ≤ N := fun o ho =>
      ⟨(List.pairwise_cons.mp hpw).1 o ho, (hocc o (List.mem_cons_of_mem _ ho)).2⟩
    have hxN : x.pos + x.len ≤ N := hx.2
    cases stack with
    | nil =>
      have hstep : pairStep s ([], pairs) x = ([x], pairs) := rfl
      rw [hstep]
      refine ih htail [x] pairs (x.pos + x.len) hrest hxN ⟨?_, ?_, ?_, ?_, ?_, ?_⟩
      · exact List.pairwise_singleton _ _
      · intro o ho
        rw [List.mem_singleton] at ho
        subst ho
        exact Nat.le_refl _
      · exact hinv.pair_inner
      · intro pr hpr
        have := hinv.pair_bound pr hpr
        omega
      · intro pr hpr e he
        rw [List.mem_singleton] at he
        subst he
        have := hinv.pair_bound pr hpr
        exact Or.inr (by omega)
      · exact hinv.pair_nested
    | cons top rest2 =>
      have hsorted := hinv.stack_sorted
      have htop_rest : ∀ e ∈ rest2, e.pos + e.len ≤ top.pos := (List.pairwise_cons.mp hsorted).1
      have htop_b : top.pos + top.len ≤ b := hinv.stack_bound top (List.mem_cons_self _ _)
      by_cases hc : canClose s top x = true
      · have hstep : pairStep s (top :: rest2, pairs) x = (rest2, pairs ++ [(top, x)]) := by
          show (if canClose s top x then (rest2, pairs ++ [(top, x)])
            else (x :: top :: rest2, pairs)) = _
          rw [if_pos hc]
        rw [hstep]
        have hlt := canClose_lt hc
        refine ih htail rest2 (pairs ++ [(top, x)]) (x.pos + x.len) hrest hxN
          ⟨?_, ?_, ?_, ?_, ?_, ?_⟩
        · exact (List.pairwise_cons.mp hsorted).2
        · intro e he
          have := hinv.stack_bound e (List.mem_cons_of_mem _ he)
          omega
        · intro pr hpr
          rcases List.mem_append.mp hpr with hpr | hpr
          · exact hinv.pair_inner pr hpr
          · rw [List.mem_singleton] at hpr
            subst hpr
            exact hlt
        · intro pr hpr
          rcases List.mem_append.mp hpr with hpr | hpr
          · have := hinv.pair_bound pr hpr
            omega
          · rw [List.mem_singleton] at hpr
            subst hpr
            exact Nat.le_refl _
        · intro pr hpr e he
          rcases List.mem_append.mp hpr with hpr | hpr
          · exact hinv.pair_stack pr hpr e (List.mem_cons_of_mem _ he)
          · rw [List.mem_singleton] at hpr
            subst hpr
            exact Or.inl (htop_rest e he)
        · rw [List.pairwise_append]
          refine ⟨hinv.pair_nested, List.pairwise_singleton _ _, ?_⟩
          intro a ha pr2 hpr2
          rw [List.mem_singleton] at hpr2
          subst hpr2
          rcases hinv.pair_stack a ha top (List.mem_cons_self _ _) with h | h
          · refine Or.inr ⟨h, ?_⟩
            show a.2.pos + a.2.len ≤ x.pos
            have := hinv.pair_bound a ha
            omega
          · exact Or.inl h
      · have hstep : pairStep s (top :: rest2, pairs) x = (x :: top :: rest2, pairs) := by
          show (if canClose s top x then (rest2, pairs ++ [(top, x)])
            else (x :: top :: rest2, pairs)) = _
          rw [if_neg hc]
        rw [hstep]
        refine ih htail (x :: top :: rest2) pairs (x.pos + x.len) hrest hxN
          ⟨?_, ?_, ?_, ?_, ?_, ?_⟩
        · rw [List.pairwise_cons]
          refine ⟨fun e he => ?_, hsorted⟩
          have := hinv.stack_bound e he
          omega
        · intro o ho
          rcases List.mem_cons.mp ho with rfl | ho
          · exact Nat.le_refl _
          · have := hinv.stack_bound o ho
            omega
        · exact hinv.pair_inner
        · intro pr hpr
          have := hinv.pair_bound pr hpr
          omega
        · intro pr hpr e he
          rcases List.mem_cons.mp he with rfl | he
          · have := hinv.pair_bound pr hpr
            exact Or.inr (by omega)
          · exact hinv.pair_stack pr hpr e he
        · exact hinv.pair_nested

/-- Invariant instantiated on the real tokenizer output. -/
theorem pairRun_full_inv (s : List Char) :
    ∃ b2, b2 ≤ s.length ∧
      PairInv (pairRun s (findStyleMarkers s)).1 (pairRun s (findStyleMarkers s)).2 b2 := by
  have hspec := findStyleMarkers_spec s
  exact pairRun_inv s s.length (findStyleMarkers s) hspec.2 [] [] 0
    (fun o ho => ⟨Nat.zero_le _, (hspec.1 o ho).1⟩) (Nat.zero_le _)
    ⟨List.Pairwise.nil, by simp, by simp, by simp, by simp, List.Pairwise.nil⟩

/-- C10: pairs produced by the pairer on a line's occurrence list are
well-nested: within a pair the opening position precedes the closing
position, and two distinct pairs have spans (token ranges included) that are
either disjoint or strictly contained one in the other; crossing pairs never
occur. -/
theorem c10_pairs_well_nested (s : List Char) :
    (∀ pr ∈ pairStyleMarkers (findStyleMarkers s) s, pr.1.pos < pr.2.pos) ∧
    (∀ pr ∈ pairStyleMarkers (findStyleMarkers s) s,
      ∀ pr2 ∈ pairStyleMarkers (findStyleMarkers s) s, pr ≠ pr2 →
        (pr.2.pos + pr.2.len ≤ pr2.1.pos ∨ pr2.2.pos + pr2.2.len ≤ pr.1.pos) ∨
        (pr.1.pos < pr2.1.pos ∧ pr2.2.pos + pr2.2.len < pr.2.pos + pr.2.len) ∨
        (pr2.1.pos < pr.1.pos ∧ pr.2.pos + pr.2.len < pr2.2.pos + pr2.2.len)) := by
  obtain ⟨b2, _, hinv⟩ := pairRun_full_inv s
  constructor
  · intro pr hpr
    have h := hinv.pair_inner pr hpr
    have := occ_len_pos pr.1
    omega
  · intro pr hpr pr2 hpr2 hne
    have hpw := hinv.pair_nested.imp
      (fun {a c} (h : pairNest a c) =>
        (show (a.2.pos + a.2.len ≤ c.1.pos ∨ c.2.pos + c.2.len ≤ a.1.pos) ∨
            (a.1.pos < c.1.pos ∧ c.2.pos + c.2.len < a.2.pos + a.2.len) ∨
            (c.1.pos < a.1.pos ∧ a.2.pos + a.2.len < c.2.pos + c.2.len) by
          rcases h with h | ⟨h1, h2⟩
          · exact Or.inl (Or.inl h)
          · refine Or.inr (Or.inr ⟨?_, ?_⟩)
            · have := occ_len_pos c.1
              omega
            · have := occ_len_pos c.2
              omega))
    refine List.Pairwise.forall ?_ hpw hpr hpr2 hne
    intro a c h
    rcases h with (h | h) | (h | h)
    · exact Or.inl (Or.inr h)
    · exact Or.inl (Or.inl h)
    · exact Or.inr (Or.inr h)
    · exact Or.inr (Or.inl h)

/-- Witness for C10 at `"*a*"`: its single pair opens at 0 and closes at 2. -/
theorem c10_witness :
    ((⟨0, Tok.i⟩, ⟨2, Tok.i⟩) : Occ × Occ) ∈
      pairStyleMarkers (findStyleMarkers "*a*".toList) "*a*".toList ∧
    ((⟨0, Tok.i⟩, ⟨2, Tok.i⟩) : Occ × Occ).1.pos <
      ((⟨0, Tok.i⟩, ⟨2, Tok.i⟩) : Occ × Occ).2.pos :=
  ⟨by decide, (c10_pairs_well_nested "*a*".toList).1 _ (by decide)⟩

/-- C5: the pairer's loop step closes the top of the stack exactly when the
top has the same marker kind, the inner span is non-empty, and the span
contains no newline — in that case the top is popped and the pair emitted
(pair-list membership is precisely the `paired = True` marking); in every
other case the occurrence is pushed.  Occurrences remaining on the stack at
the end of a line are never part of an emitted pair, i.e. never paired. -/
theorem c5_pairer_step (s : List Char) :
    (∀ (top : Occ) (st : List Occ) (ps : List (Occ × Occ)) (occ : Occ),
      pairStep s (top :: st, ps) occ =
        if top.token = occ.token ∧ top.pos + top.len < occ.pos ∧
            '\n' ∉ slice s (top.pos + top.len) occ.pos
        then (st, ps ++ [(top, occ)])
        else (occ :: top :: st, ps)) ∧
    (∀ (ps : List (Occ × Occ)) (occ : Occ), pairStep s ([], ps) occ = ([occ], ps)) ∧
    (∀ e ∈ (pairRun s (findStyleMarkers s)).1,
      ∀ pr ∈ (pairRun s (findStyleMarkers s)).2, e ≠ pr.1 ∧ e ≠ pr.2) := by
  refine ⟨?_, fun ps occ => rfl, ?_⟩
  · intro top st ps occ
    show (if canClose s top occ then _ else _) = _
    by_cases h : top.token = occ.token ∧ top.pos + top.len < occ.pos ∧
      '\n' ∉ slice s (top.pos + top.len) occ.pos
    · rw [if_pos ((canClose_iff s top occ).mpr h), if_pos h]
    · rw [if_neg (fun hc => h ((canClose_iff s top occ).mp hc)), if_neg h]
  · obtain ⟨b2, _, hinv⟩ := pairRun_full_inv s
    intro e he pr hpr
    have hs := hinv.pair_stack pr hpr e he
    have hi := hinv.pair_inner pr hpr
    have h1 := occ_len_pos e
    have h2 := occ_len_pos pr.1
    have h3 := occ_len_pos pr.2
    constructor
    · intro heq
      subst heq
      rcases hs with h | h <;> omega
    · intro heq
      subst heq
      rcases hs with h | h <;> omega

/-- Witness for C5 at `"__*a*"`: the underline occurrence is left on the stack
and is not part of the single emitted pair. -/
theorem c5_witness :
    ((⟨0, Tok.u⟩ : Occ) ∈ (pairRun "__*a*".toList (findStyleMarkers "__*a*".toList)).1 ∧
      ((⟨2, Tok.i⟩, ⟨4, Tok.i⟩) : Occ × Occ) ∈
        (pairRun "__*a*".toList (findStyleMarkers "__*a*".toList)).2) ∧
    ((⟨0, Tok.u⟩ : Occ) ≠ ((⟨2, Tok.i⟩, ⟨4, Tok.i⟩) : Occ × Occ).1 ∧
      (⟨0, Tok.u⟩ : Occ) ≠ ((⟨2, Tok.i⟩, ⟨4, Tok.i⟩) : Occ × Occ).2) :=
  ⟨⟨by decide, by decide⟩,
    (c5_pairer_step "__*a*".toList).2.2 _ (by decide) _ (by decide)⟩

/-! ### Emitter concatenation and claim C1 -/

theorem flushBuf_concat (c : Counts) (buf : List Char) (segs : List Seg) :
    segsText (flushBuf c buf segs) = segsText segs ++ buf := by
  unfold flushBuf
  split
  · simp [segsText]
  · rename_i h
    rw [not_not] at h
    rw [h, List.append_nil]

theorem emitFinish_concat (s : List Char) (pairs : List (Occ × Occ)) (c : Counts)
    (buf : List Char) (segs : List Seg) :
    segsText (emitFinish s pairs c buf segs) = segsText segs ++ buf := by
  unfold emitFinish
  split
  · rw [flushBuf_concat, flushBuf_concat, List.append_nil]
  · exact flushBuf_concat _ _ _

theorem emitFromF_concat (s : List Char) (pairs : List (Occ × Occ)) :
    ∀ (fuel idx : Nat) (counts : Counts) (buf : List Char) (segs : List Seg),
      s.length - idx < fuel →
      segsText (emitFromF fuel s pairs idx counts buf segs) =
        segsText segs ++ buf ++ stripFrom pairs (s.drop idx) idx := by
  intro fuel
  induction fuel with
  | zero =>
    intro idx _ _ _ hf
    omega
  | succ fuel ih =>
    intro idx counts buf segs hf
    unfold emitFromF
    by_cases hidx : idx < s.length
    · rw [if_pos hidx]
      have hdrop : s.drop idx = s[idx] :: s.drop (idx + 1) := (List.getElem_cons_drop s idx hidx).symm
      have hgetD : s.getD idx ' ' = s[idx] := by
        rw [List.getD_eq_getElem?_getD, List.getElem?_eq_getElem hidx]
        rfl
      rw [hdrop, stripFrom]
      by_cases hev : isEventPos pairs idx = true
      · rw [if_pos hev, ih (idx + 1) _ _ _ (by omega), flushBuf_concat, hgetD]
        by_cases hsk : isSkip pairs idx = true
        · simp [hsk]
        · simp [hsk]
      · rw [if_neg hev, ih (idx + 1) _ _ _ (by omega), hgetD]
        by_cases hsk : isSkip pairs idx = true
        · simp [hsk]
        · simp [hsk]
    · rw [if_neg hidx, List.drop_eq_nil_of_le (by omega), emitFinish_concat]
      simp [stripFrom]

theorem stripFrom_no_pairs (l : List Char) : ∀ i, stripFrom [] l i = l := by
  induction l with
  | nil => intro i; rfl
  | cons c cs ih =>
    intro i
    rw [stripFrom]
    have : isSkip [] i = false := rfl
    rw [this, ih]
    rfl

theorem stripFrom_eq_nil (pairs : List (Occ × Occ)) (l : List Char) :
    ∀ i, stripFrom pairs l i = [] ↔ ∀ m, m < l.length → isSkip pairs (i + m) = true := by
  induction l with
  | nil => intro i; simp [stripFrom]
  | cons c cs ih =>
    intro i
    rw [stripFrom, List.append_eq_nil]
    constructor
    · rintro ⟨h1, h2⟩ m hm
      cases m with
      | zero =>
        by_contra hsk
        rw [Nat.add_zero] at hsk
        rw [if_neg hsk] at h1
        cases h1
      | succ m =>
        have := (ih (i + 1)).mp h2 m (by simpa using hm)
        rw [show i + (m + 1) = i + 1 + m by omega]
        exact this
    · intro h
      constructor
      · have h0 := h 0 (by simp)
        rw [Nat.add_zero] at h0
        rw [if_pos h0]
      · refine (ih (i + 1)).mpr fun m hm => ?_
        have := h (m + 1) (by simpa using hm)
        rw [show i + (m + 1) = i + 1 + m by omega] at this
        exact this

theorem isSkip_eq_false_iff (pairs : List (Occ × Occ)) (p : Nat) :
    isSkip pairs p = false ↔
      ∀ pr ∈ pairs, ¬((pr.1.pos ≤ p ∧ p < pr.1.pos + pr.1.len) ∨
        (pr.2.pos ≤ p ∧ p < pr.2.pos + pr.2.len)) := by
  unfold isSkip
  rw [List.any_eq_false]
  constructor
  · intro h pr hpr
    have := h pr hpr
    simpa using this
  · intro h pr hpr
    simpa using h pr hpr

/-- The inner start of the first emitted pair is an in-range position not
covered by any paired marker token. -/
theorem exists_unskipped (s : List Char) (hne : s ≠ []) :
    ∃ p, p < s.length ∧ isSkip (pairStyleMarkers (findStyleMarkers s) s) p = false := by
  obtain ⟨b2, hb2, hinv⟩ := pairRun_full_inv s
  cases hPc : (pairRun s (findStyleMarkers s)).2 with
  | nil =>
    refine ⟨0, List.length_pos.mpr hne, ?_⟩
    unfold pairStyleMarkers
    rw [hPc]
    rfl
  | cons pr0 rest =>
    have hmem0 : pr0 ∈ (pairRun s (findStyleMarkers s)).2 := by
      rw [hPc]
      exact List.mem_cons_self _ _
    have hinner0 := hinv.pair_inner pr0 hmem0
    have hbound0 := hinv.pair_bound pr0 hmem0
    have hlen2 := occ_len_pos pr0.2
    refine ⟨pr0.1.pos + pr0.1.len, by omega, ?_⟩
    unfold pairStyleMarkers
    rw [hPc, isSkip_eq_false_iff]
    intro pr hpr
    rcases List.mem_cons.mp hpr with rfl | hpr
    · omega
    · have hmempr : pr ∈ (pairRun s (findStyleMarkers s)).2 := by
        rw [hPc]
        exact List.mem_cons_of_mem _ hpr
      have hinnerpr := hinv.pair_inner pr hmempr
      have hnest : pairNest pr0 pr := by
        have := hinv.pair_nested
        rw [hPc, List.pairwise_cons] at this
        exact this.1 pr hpr
      rcases hnest with h | ⟨h1, h2⟩
      · omega
      · omega

theorem stripFrom_full_ne_nil (s : List Char) (hne : s ≠ []) :
    stripFrom (pairStyleMarkers (findStyleMarkers s) s) s 0 ≠ [] := by
  obtain ⟨p, hp, hskip⟩ := exists_unskipped s hne
  intro hcon
  rw [stripFrom_eq_nil] at hcon
  have h := hcon p hp
  rw [Nat.zero_add] at h
  rw [h] at hskip
  cases hskip

theorem findFromF_no_markers (s : List Char) (h : ¬('*' ∈ s ∨ '_' ∈ s)) :
    ∀ fuel i, findFromF fuel s i = [] := by
  intro fuel
  induction fuel with
  | zero => intro i; rfl
  | succ fuel ih =>
    intro i
    unfold findFromF
    split
    · cases heq : firstTok s i with
      | some t =>
        exfalso
        obtain ⟨u2, hu⟩ := List.isPrefixOf_iff_prefix.mp (firstTok_isPrefix heq)
        have hdropsub : ∀ a : Char, a ∈ s.drop i → a ∈ s := fun a ha =>
          (List.drop_subset i s) ha
        cases t with
        | bi =>
          apply h
          exact Or.inl (hdropsub '*' (by rw [← hu]; simp [Tok.chars]))
        | b =>
          apply h
          exact Or.inl (hdropsub '*' (by rw [← hu]; simp [Tok.chars]))
        | u =>
          apply h
          exact Or.inr (hdropsub '_' (by rw [← hu]; simp [Tok.chars]))
        | i =>
          apply h
          exact Or.inl (hdropsub '*' (by rw [← hu]; simp [Tok.chars]))
      | none => exact ih (i + 1)
    · rfl

/-- C1: concatenating the segment texts returned by `_parse_style` equals the
input line with exactly the characters of paired marker tokens removed;
characters at all other positions — unpaired marker occurrences included —
are retained verbatim (the right-hand side keeps every character whose
position is outside the token ranges of the emitted pairs). -/
theorem c1_concat_strips_paired_markers (s : List Char) :
    segsText (parse_style s) = stripFrom (pairStyleMarkers (findStyleMarkers s) s) s 0 := by
  unfold parse_style
  split
  · rename_i hfast
    have hnm : ¬('*' ∈ s ∨ '_' ∈ s) := by
      simp only [Bool.not_eq_true', Bool.or_eq_false_iff] at hfast
      rcases hfast with ⟨h1, h2⟩
      rintro (hm | hm)
      · rw [show s.contains '*' = List.elem '*' s from rfl] at h1
        rw [List.elem_iff.mpr hm] at h1
        cases h1
      · rw [show s.contains '_' = List.elem '_' s from rfl] at h2
        rw [List.elem_iff.mpr hm] at h2
        cases h2
    have hocc : findStyleMarkers s = [] := findFromF_no_markers s hnm _ 0
    rw [hocc]
    show segsText [("content", s)] = stripFrom (pairStyleMarkers [] s) s 0
    have hps : pairStyleMarkers [] s = [] := rfl
    rw [hps, stripFrom_no_pairs]
    simp [segsText]
  · rename_i hfast
    have hsne : s ≠ [] := by
      rw [Bool.not_eq_true, Bool.not_eq_false', Bool.or_eq_true] at hfast
      rcases hfast with hm | hm
      · simp only [List.contains] at hm
        exact List.ne_nil_of_mem (List.elem_iff.mp hm)
      · simp only [List.contains] at hm
        exact List.ne_nil_of_mem (List.elem_iff.mp hm)
    split
    · rename_i hmerged
      exfalso
      apply stripFrom_full_ne_nil s hsne
      have hcc := mergeAdjacentSegments_concat
        (emitSegmentsFromEvents s (pairStyleMarkers (findStyleMarkers s) s))
      rw [hmerged] at hcc
      have hemit := emitFromF_concat s (pairStyleMarkers (findStyleMarkers s) s)
        (s.length + 1) 0 ⟨0, 0, 0⟩ [] [] (by omega)
      rw [List.drop_zero] at hemit
      unfold emitSegmentsFromEvents at hcc
      rw [hemit] at hcc
      exact hcc.symm
    · rw [mergeAdjacentSegments_concat]
      unfold emitSegmentsFromEvents
      rw [emitFromF_concat s _ (s.length + 1) 0 ⟨0, 0, 0⟩ [] [] (by omega), List.drop_zero]
      rfl

/-! ### Justify-block splitter lemmas and claims C2, C3 -/

theorem align_header_len_pos (a : Align) : 0 < a.header.length := by
  cases a <;> decide

theorem closer_len : closer.length = 10 := rfl

theorem findCloserF_bounds (s : List Char) :
    ∀ (fuel j k : Nat), findCloserF fuel s j = some k → j ≤ k ∧ k < s.length := by
  intro fuel
  induction fuel with
  | zero =>
    intro j k h
    cases h
  | succ fuel ih =>
    intro j k h
    unfold findCloserF at h
    split at h
    · split at h
      · cases h
        omega
      · have := ih (j + 1) k h
        omega
    · cases h

theorem findDirectiveF_bounds (s : List Char) :
    ∀ (fuel i st k : Nat) (a : Align), findDirectiveF fuel s i = some (st, a, k) →
      i ≤ st ∧ st + a.header.length ≤ k ∧ k < s.length := by
  intro fuel
  induction fuel with
  | zero =>
    intro i st k a h
    cases h
  | succ fuel ih =>
    intro i st k a h
    unfold findDirectiveF at h
    split at h
    · split at h
      · split at h
        · rename_i a0 hh k0 hc
          rw [Option.some.injEq, Prod.mk.injEq, Prod.mk.injEq] at h
          obtain ⟨rfl, rfl, rfl⟩ := h
          have := findCloserF_bounds s (s.length + 1) _ _ hc
          omega
        · have := ih (i + 1) st k a h
          omega
      · have := ih (i + 1) st k a h
        omega
    · cases h

theorem findDirective_bounds (s : List Char) (i st k : Nat) (a : Align)
    (h : findDirective s i = some (st, a, k)) :
    i ≤ st ∧ st + a.header.length ≤ k ∧ k < s.length :=
  findDirectiveF_bounds s (s.length + 1) i st k a h

theorem slice_eq_nil_of_le (s : List Char) (a b : Nat) (h : b ≤ a) : slice s a b = [] :=
  List.drop_eq_nil_of_le (Nat.le_trans (List.length_take_le _ _) h)

theorem emitChunk_concat (al : Option Align) (c : List Char) (acc : List Block) :
    blocksText (emitChunk al c acc) = blocksText acc ++ c := by
  unfold emitChunk
  split
  · simp [blocksText]
  · rename_i h
    rw [not_not] at h
    rw [h, List.append_nil]

theorem emitChunk_mem {al : Option Align} {c : List Char} {acc : List Block} {blk : Block}
    (h : blk ∈ emitChunk al c acc) : blk ∈ acc ∨ blk.2 ≠ [] := by
  unfold emitChunk at h
  split at h
  · rename_i hc
    rcases List.mem_append.mp h with h | h
    · exact Or.inl h
    · rw [List.mem_singleton] at h
      subst h
      exact Or.inr hc
  · exact Or.inl h

/-- One-step equation of the splitter loop at a match. -/
theorem justifyLoopF_some (fuel : Nat) (s : List Char) (lastEnd : Nat) (acc : List Block)
    (st k : Nat) (a : Align) (hd : findDirective s lastEnd = some (st, a, k)) :
    justifyLoopF (fuel + 1) s lastEnd acc =
      justifyLoopF fuel s (k + closer.length)
        (emitChunk (some a) (slice s (st + a.header.length) k)
          (if lastEnd < st then emitChunk none (slice s lastEnd st) acc else acc)) := by
  conv_lhs => rw [justifyLoopF]
  rw [hd]

/-- One-step equation of the splitter loop when no match remains. -/
theorem justifyLoopF_none (fuel : Nat) (s : List Char) (lastEnd : Nat) (acc : List Block)
    (hd : findDirective s lastEnd = none) :
    justifyLoopF (fuel + 1) s lastEnd acc =
      if lastEnd < s.length then emitChunk none (slice s lastEnd s.length) acc else acc := by
  conv_lhs => rw [justifyLoopF]
  rw [hd]

theorem stripJustifyF_some (fuel : Nat) (s : List Char) (i st k : Nat) (a : Align)
    (hd : findDirective s i = some (st, a, k)) :
    stripJustifyF (fuel + 1) s i =
      slice s i st ++ slice s (st + a.header.length) k ++
        stripJustifyF fuel s (k + closer.length) := by
  conv_lhs => rw [stripJustifyF]
  rw [hd]

theorem stripJustifyF_none (fuel : Nat) (s : List Char) (i : Nat)
    (hd : findDirective s i = none) :
    stripJustifyF (fuel + 1) s i = slice s i s.length := by
  conv_lhs => rw [stripJustifyF]
  rw [hd]

theorem justifyLoopF_mem (s : List Char) :
    ∀ (fuel lastEnd : Nat) (acc : List Block),
      ∀ blk ∈ justifyLoopF fuel s lastEnd acc, blk ∈ acc ∨ blk.2 ≠ [] := by
  intro fuel
  induction fuel with
  | zero => exact fun lastEnd acc blk h => Or.inl h
  | succ fuel ih =>
    intro lastEnd acc blk h
    cases hd : findDirective s lastEnd with
    | some m =>
      obtain ⟨st, a, k⟩ := m
      rw [justifyLoopF_some fuel s lastEnd acc st k a hd] at h
      rcases ih _ _ blk h with h | h
      · rcases emitChunk_mem h with h | h
        · split at h
          · rcases emitChunk_mem h with h | h
            · exact Or.inl h
            · exact Or.inr h
          · exact Or.inl h
        · exact Or.inr h
      · exact Or.inr h
    | none =>
      rw [justifyLoopF_none fuel s lastEnd acc hd] at h
      split at h
      · rcases emitChunk_mem h with h | h
        · exact Or.inl h
        · exact Or.inr h
      · exact Or.inl h

theorem justifyLoopF_concat (s : List Char) :
    ∀ (fuel lastEnd : Nat) (acc : List Block), s.length - lastEnd < fuel →
      blocksText (justifyLoopF fuel s lastEnd acc) =
        blocksText acc ++ stripJustifyF fuel s lastEnd := by
  intro fuel
  induction fuel with
  | zero =>
    intro lastEnd _ hf
    omega
  | succ fuel ih =>
    intro lastEnd acc hf
    cases hd : findDirective s lastEnd with
    | some m =>
      obtain ⟨st, a, k⟩ := m
      have hb := findDirective_bounds s lastEnd st k a hd
      have hcl := closer_len
      have hhp := align_header_len_pos a
      rw [justifyLoopF_some fuel s lastEnd acc st k a hd,
        stripJustifyF_some fuel s lastEnd st k a hd,
        ih _ _ (by omega), emitChunk_concat]
      have hpre : blocksText (if lastEnd < st then emitChunk none (slice s lastEnd st) acc else acc) =
          blocksText acc ++ slice s lastEnd st := by
        split
        · exact emitChunk_concat _ _ _
        · rename_i hlt
          rw [slice_eq_nil_of_le s lastEnd st (by omega), List.append_nil]
      rw [hpre]
      simp [List.append_assoc]
    | none =>
      rw [justifyLoopF_none fuel s lastEnd acc hd, stripJustifyF_none fuel s lastEnd hd]
      split
      · exact emitChunk_concat _ _ _
      · rename_i hlt
        rw [slice_eq_nil_of_le s lastEnd s.length (by omega), List.append_nil]

/-- C2 counterexample: the claim says block concatenation reconstructs the
input minus directive markers, but a whitespace-only captured content (here a
single space) is dropped by the final filter, so the space is lost. -/
theorem c2_counterexample :
    blocksText (parse_justify_blocks "a[justify:left] [/justify]b".toList) ≠
      stripJustifyDirectives "a[justify:left] [/justify]b".toList := by
  decide

/-- C2 amended: when the scan produces at least one chunk and no chunk is
whitespace-only (so the whole-input fallback and the whitespace filter do not
fire), the returned blocks are exactly the chunks of the single left-to-right
scan in source order, and concatenating their texts reconstructs the input
with exactly the directive markers removed. -/
theorem c2_blocks_reconstruct (s : List Char)
    (h1 : justifyLoopF (s.length + 1) s 0 [] ≠ [])
    (h2 : ∀ blk ∈ justifyLoopF (s.length + 1) s 0 [], pyStrip blk.2 ≠ []) :
    parse_justify_blocks s = justifyLoopF (s.length + 1) s 0 [] ∧
    blocksText (parse_justify_blocks s) = stripJustifyDirectives s := by
  have hfilter : (justifyLoopF (s.length + 1) s 0 []).filter
      (fun b => !b.2.isEmpty && !(pyStrip b.2).isEmpty) = justifyLoopF (s.length + 1) s 0 [] := by
    rw [List.filter_eq_self]
    intro blk hblk
    have hne2 : blk.2 ≠ [] := by
      rcases justifyLoopF_mem s _ _ _ blk hblk with h | h
      · exact absurd h (List.not_mem_nil blk)
      · exact h
    rw [isEmpty_false_of_ne_nil hne2, isEmpty_false_of_ne_nil (h2 blk hblk)]
    rfl
  have hmain : parse_justify_blocks s = justifyLoopF (s.length + 1) s 0 [] := by
    unfold parse_justify_blocks
    rw [if_neg h1]
    exact hfilter
  refine ⟨hmain, ?_⟩
  rw [hmain, justifyLoopF_concat s (s.length + 1) 0 [] (by omega)]
  rfl

/-- Witness for C2 at `"a[justify:center]b[/justify]c"`. -/
theorem c2_witness :
    (justifyLoopF ("a[justify:center]b[/justify]c".toList.length + 1)
        "a[justify:center]b[/justify]c".toList 0 [] ≠ [] ∧
      ∀ blk ∈ justifyLoopF ("a[justify:center]b[/justify]c".toList.length + 1)
        "a[justify:center]b[/justify]c".toList 0 [], pyStrip blk.2 ≠ []) ∧
    blocksText (parse_justify_blocks "a[justify:center]b[/justify]c".toList) =
      stripJustifyDirectives "a[justify:center]b[/justify]c".toList :=
  ⟨⟨by decide, by decide⟩,
    (c2_blocks_reconstruct "a[justify:center]b[/justify]c".toList (by decide) (by decide)).2⟩

/-- C3 counterexample: the claim says any input with no complete directive
pair comes back as one unchanged block, but a whitespace-only input (here a
single space) has no directive pair and yet yields the empty block list,
because the final filter drops whitespace-only blocks. -/
theorem c3_counterexample :
    findDirective [' '] 0 = none ∧
      parse_justify_blocks [' '] ≠ [((none : Option Align), [' '])] := by
  decide

/-- C3 amended: for every input with no complete justify directive pair that
is not empty and not whitespace-only, the splitter returns exactly one block
with alignment `None` carrying the whole input unchanged (and, being total,
raises no exception); empty or whitespace-only inputs instead return the
empty block list. -/
theorem c3_no_directive_single_block (s : List Char)
    (h1 : findDirective s 0 = none) (h2 : pyStrip s ≠ []) :
    parse_justify_blocks s = [((none : Option Align), s)] := by
  have hsne : s ≠ [] := fun hcon => h2 (by rw [hcon]; rfl)
  have hloop : justifyLoopF (s.length + 1) s 0 [] = [((none : Option Align), s)] := by
    rw [show s.length + 1 = s.length + 1 from rfl, justifyLoopF_none s.length s 0 [] h1,
      if_pos (List.length_pos.mpr hsne)]
    have hslice : slice s 0 s.length = s := by
      unfold slice
      rw [List.take_length, List.drop_zero]
    rw [hslice]
    unfold emitChunk
    rw [if_pos hsne]
    rfl
  unfold parse_justify_blocks
  rw [hloop, if_neg (by simp)]
  simp [List.filter, isEmpty_false_of_ne_nil hsne, isEmpty_false_of_ne_nil h2]

/-- Witness for C3 at the spec's example `"[justify:center]unterminated"`. -/
theorem c3_witness :
    (findDirective "[justify:center]unterminated".toList 0 = none ∧
      pyStrip "[justify:center]unterminated".toList ≠ []) ∧
    parse_justify_blocks "[justify:center]unterminated".toList =
      [((none : Option Align), "[justify:center]unterminated".toList)] :=
  ⟨⟨by decide, by decide⟩, c3_no_directive_single_block _ (by decide) (by decide)⟩

end TkMarkText
